import Mathlib

/-!
Verification development for the image-cache module (`src/image-cache/src/image_cache.c`).

Strings (URLs, ETags, file names, file contents) are modelled as `List Char`;
byte buffers as `List Nat` (each element an `unsigned char`, i.e. `< 256`).
The 128-bit murmur hash is an external collaborator of the module ("treated as
an opaque `h(bytes) -> 16 bytes`"), so every definition that needs it takes a
parameter `h : List Char → List Nat`.  The filesystem is modelled as an
association list from file names to file contents; the on-disk cache directory
seen by `clean_cache` is an association list from file names to last-access
times.  All definitions are computable and follow the C source line by line;
deviations forced by the modelling (e.g. I/O errors that are not modelled) are
noted in the doc comments.
-/

namespace ImageCache

/-- Constant `CACHE_MAX_SIZE` from image_cache.c: max image cache files to keep. -/
def CACHE_MAX_SIZE : Nat := 3

/-- Constant `CACHE_MAX_TIME` from image_cache.c: one week in seconds. -/
def CACHE_MAX_TIME : Nat := 60 * 60 * 24 * 7

/-- The `HEX_CONV` table of image_cache.c. -/
def HEX_CONV : List Char := "0123456789ABCDEF".toList

/-- Indexing into `HEX_CONV`; the C code only ever indexes with a nibble
(`result[i] & 15` or `result[i] >> 4` of an `unsigned char`), so indices are
always `< 16` and the default is never reached. -/
def hexChar (n : Nat) : Char := HEX_CONV.getD n '0'

/-- The hex-rendering loop of `get_filename_from_url`: each byte `b` is written
as `HEX_CONV[b & 15]` then `HEX_CONV[b >> 4]` (low nibble first).  For a byte
`b < 256`, `b >> 4 = b / 16 % 16`. -/
def hex_encode : List Nat → List Char
  | [] => []
  | b :: t => hexChar (b % 16) :: hexChar (b / 16 % 16) :: hex_encode t

/-- The `FROM_HEX` table of image_cache.c: `'0'..'9' ↦ 0..9`,
`'A'..'F' ↦ 10..15`, `'a'..'f' ↦ 10..15`, everything else `DC = 0`. -/
def FROM_HEX (c : Char) : Nat :=
  if '0' ≤ c ∧ c ≤ '9' then c.toNat - 48
  else if 'A' ≤ c ∧ c ≤ 'F' then c.toNat - 55
  else if 'a' ≤ c ∧ c ≤ 'f' then c.toNat - 87
  else 0

/-- The decoding loop of `kill_etag_for_url_hash`: consume the hex string two
characters at a time, the first character being the low nibble:
`url_hash[ii] = (FROM_HEX[s[1]] << 4) | FROM_HEX[s[0]]`. -/
def bytes_from_hex : List Char → List Nat
  | c0 :: c1 :: rest => (FROM_HEX c1 * 16 + FROM_HEX c0) :: bytes_from_hex rest
  | _ => []

/-- Model of `get_filename_from_url`: the fixed prefix `"I$"` (`FILENAME_PREFIX`)
followed by the 32-character hex rendering of the 16-byte hash of the URL. -/
def get_filename_from_url (h : List Char → List Nat) (url : List Char) : List Char :=
  'I' :: '$' :: hex_encode (h url)

/-- The cache-file-name test inlined in `clean_cache`:
`filename[0] == 'I' && filename[1] == '$' && strlen(filename) == 34`. -/
def is_cache_filename : List Char → Bool
  | c0 :: c1 :: rest => c0 == 'I' && c1 == '$' && (c0 :: c1 :: rest).length == 34
  | _ => false

/-- Model of `struct etag_data`: one entry of the ETag index.  In the C code `url` and
`etag` are `char *` that may be NULL; entries created by `etag_add` always have
a non-NULL `url`, so only `etag` is an `Option` here. -/
structure etag_data where
  url : List Char
  etag : Option (List Char)
deriving DecidableEq

/-- Model of `get_etag_for_url`: `HASH_FIND_STR` on the index (modelled as first match
in insertion order), returning the entry's `etag` field (NULL when the entry
is absent, and also when the entry's own `etag` is NULL). -/
def get_etag_for_url (cache : List etag_data) (url : List Char) : Option (List Char) :=
  match cache with
  | [] => none
  | d :: rest => if d.url = url then d.etag else get_etag_for_url rest url

/-- Model of `kill_etag_for_url`: find the entry for `url`; if found, free its etag and
set it to NULL.  The entry itself stays in the index. -/
def kill_etag_for_url (url : List Char) : List etag_data → List etag_data
  | [] => []
  | d :: rest => if d.url = url then ⟨d.url, none⟩ :: rest else d :: kill_etag_for_url url rest

/-- The `HASH_ITER` loop of `kill_etag_for_url_hash`: rehash every URL of the
index in order; delete the first entry whose hash equals the target and
return. -/
def kill_matching_hash (h : List Char → List Nat) (target : List Nat) :
    List etag_data → List etag_data
  | [] => []
  | d :: rest => if h d.url = target then rest else d :: kill_matching_hash h target rest

/-- Model of `kill_etag_for_url_hash`: if the hash string does not have length
`FILENAME_HASH_BYTES*2 = 32`, log and return without action; otherwise decode
it with `FROM_HEX` and remove the first entry whose rehashed URL matches. -/
def kill_etag_for_url_hash (h : List Char → List Nat) (url_hash_str : List Char)
    (cache : List etag_data) : List etag_data :=
  if url_hash_str.length = 32 then
    kill_matching_hash h (bytes_from_hex url_hash_str) cache
  else cache

/-- Model of `write_etags_to_cache`: iterate over the index in order and, for every
entry whose `etag` and `url` are both non-NULL, write `url SP etag LF`.  The
result is the byte content of the `.etags` file. -/
def write_etags_to_cache : List etag_data → List Char
  | [] => []
  | d :: rest =>
    (match d.etag with
     | some e => d.url ++ ' ' :: (e ++ ['\n'])
     | none => []) ++ write_etags_to_cache rest

/-- The pairs `(url, etag)` held by the index entries that have an ETag; this
is what `write_etags_to_cache` serialises. -/
def etag_pairs (cache : List etag_data) : List (List Char × List Char) :=
  cache.filterMap (fun d => d.etag.map (fun e => (d.url, e)))

/-- Model of `parse_etag_file_data`, on the in-memory image of the `.etags` file.  One
fuel unit per parsed record; each record consumes at least two characters, so
`fuel = length` (supplied by `parse_etag_file_data`) never runs out.  Each
step mirrors the C loop body: `url_len = safe_strtoklen(f, ' ', end)` is the
length of the longest token-free run (`takeWhile`), a zero-length URL or ETag
breaks out of the loop, `safe_strdup` is `take`, and the read pointer advances
to `etag + etag_len + 1` (`drop`). -/
def parse_etag_aux : Nat → List Char → List (List Char × List Char)
  | 0, _ => []
  | fuel + 1, f =>
    if f.isEmpty then []
    else
      let url_len := (f.takeWhile (fun c => c != ' ')).length
      if url_len = 0 then []
      else
        let rest := f.drop (url_len + 1)
        let etag_len := (rest.takeWhile (fun c => c != '\n')).length
        if etag_len = 0 then []
        else (f.take url_len, rest.take etag_len) ::
          parse_etag_aux fuel (rest.drop (etag_len + 1))

/-- Model of `parse_etag_file_data f len` with `len = f.length`: the list of
`(url, etag)` records added to the index by `etag_add`, in file order. -/
def parse_etag_file_data (f : List Char) : List (List Char × List Char) :=
  parse_etag_aux f.length f

/-- The cache directory, as an association list from file names to file
contents (the bytes of the cached image). -/
abbrev file_sys := List (List Char × List Nat)

/-- Image data delivered to the user callback: `(url, bytes)`; a zero-length
`bytes` models `image.bytes = 0, image.size = 0`. -/
abbrev image_data := List Char × List Nat

/-- Look a file up by name (first match; real directories have unique names). -/
def fs_lookup : file_sys → List Char → Option (List Nat)
  | [], _ => none
  | (n, c) :: rest, name => if n = name then some c else fs_lookup rest name

/-- Model of `remove(path)`: delete the named file. -/
def fs_remove : file_sys → List Char → file_sys
  | [], _ => []
  | (n, c) :: rest, name => if n = name then rest else (n, c) :: fs_remove rest name

/-- Model of `fopen(path, "wb")` + `fwrite`: truncate-or-create the named file with the
given bytes. -/
def fs_write : file_sys → List Char → List Nat → file_sys
  | [], name, bytes => [(name, bytes)]
  | (n, c) :: rest, name, bytes =>
    if n = name then (n, bytes) :: rest else (n, c) :: fs_write rest name bytes

/-- Model of `image_exists_in_cache`: `access(get_full_path(get_filename_from_url(url)),
F_OK) != -1`. -/
def image_exists_in_cache (h : List Char → List Nat) (fs : file_sys) (url : List Char) : Bool :=
  (fs_lookup fs (get_filename_from_url h url)).isSome

/-- Model of `struct work_item`: `bytes = none` models a NULL `image.bytes` pointer
(the fetch stage passes NULL both on a failed transfer and on an empty
response body). -/
structure work_item where
  url : List Char
  bytes : Option (List Nat)
  request_failed : Bool

/-- Model of `callback_cached_image`: open/mmap the cache file for `url` and invoke the
callback with the mapped bytes; when the file is absent (or empty) the
callback is invoked with `bytes = 0, size = 0`.  Returns the callback's
argument. -/
def callback_cached_image (h : List Char → List Nat) (fs : file_sys) (url : List Char) :
    image_data :=
  (url, (fs_lookup fs (get_filename_from_url h url)).getD [])

/-- One iteration of the inner loop of `worker_run` on a single work item:
returns the callback invocations it performs (in order) and the updated cache
directory.  `bytes = NULL, request_failed = true` serves from disk via
`callback_cached_image`; `bytes = NULL, request_failed = false` does nothing
("Otherwise: We still are trying to contact the server"); non-NULL bytes are
saved with `save_image` and then delivered from memory.  `save_image`'s write
always succeeds in this model (I/O errors are not modelled). -/
def process_work_item (h : List Char → List Nat) (fs : file_sys) (item : work_item) :
    List image_data × file_sys :=
  match item.bytes with
  | none =>
    if item.request_failed then ([callback_cached_image h fs item.url], fs)
    else ([], fs)
  | some b => ([(item.url, b)], fs_write fs (get_filename_from_url h item.url) b)

/-- The worker's drain of a batch of work items, in the order they are taken
from the local list. -/
def process_work_items (h : List Char → List Nat) :
    List work_item → file_sys → List image_data × file_sys
  | [], fs => ([], fs)
  | item :: rest, fs =>
    let r := process_work_item h fs item
    let r2 := process_work_items h rest r.2
    (r.1 ++ r2.1, r2.2)

/-- Outcome of the fetch stage for one `load_item`, as seen at
`curl_multi_info_read`: either `CURLE_OK` with the accumulated body, or a
failure. -/
inductive fetch_outcome where
  | success (body : List Nat)
  | failure

/-- The work item queued by the fetch stage when a transfer completes:
`CURLE_OK` with `image.size > 0` queues the body with `failed = false`;
`CURLE_OK` with an empty body queues `(NULL, 0, false)`; a failed transfer
queues `(NULL, 0, true)`. -/
def fetch_work_item (url : List Char) : fetch_outcome → work_item
  | .success body => if 0 < body.length then ⟨url, some body, false⟩ else ⟨url, none, false⟩
  | .failure => ⟨url, none, true⟩

/-- One `image_cache_load(url)` followed to completion of its fetch: `load`
queues a `(NULL, 0, false)` work item when the file is already on disk, and
always queues a `load_item` whose completed transfer queues one more work
item; the worker then processes both.  Returns all callback invocations for
this load and the final cache directory. -/
def load_session (h : List Char → List Nat) (fs : file_sys) (url : List Char)
    (outcome : fetch_outcome) : List image_data × file_sys :=
  process_work_items h
    ((if image_exists_in_cache h fs url then [(⟨url, none, false⟩ : work_item)] else []) ++
      [fetch_work_item url outcome]) fs

/-- Model of `image_cache_remove`: if the image exists on disk, remove the file, kill
the URL's ETag and rewrite the ETag database; otherwise do nothing.  The
`Bool` records whether `write_etags_to_cache` was called. -/
def image_cache_remove (h : List Char → List Nat) (fs : file_sys) (cache : List etag_data)
    (url : List Char) : file_sys × List etag_data × Bool :=
  if image_exists_in_cache h fs url then
    (fs_remove fs (get_filename_from_url h url), kill_etag_for_url url cache, true)
  else (fs, cache, false)

/-- The `readdir` loop of `clean_cache` over the remaining directory entries:
`count` survivors seen so far, current index, current `update_cache` flag.
For a cache-named entry: if `count >= CACHE_MAX_SIZE`, remove it and kill its
ETag by hash (the hash string is the file name past the 2-byte prefix); else
if `now - atime > CACHE_MAX_TIME`, the same; else it survives and `count`
increments.  Other entries are untouched.  `stat` always succeeds in this
model (the directory listing is the source of truth).  Returns the surviving
entries, the final index, and the final flag. -/
def clean_cache_aux (h : List Char → List Nat) (now : Nat) :
    List (List Char × Nat) → Nat → List etag_data → Bool →
    List (List Char × Nat) × List etag_data × Bool
  | [], _, cache, dirty => ([], cache, dirty)
  | (name, atime) :: rest, count, cache, dirty =>
    if is_cache_filename name then
      if CACHE_MAX_SIZE ≤ count then
        clean_cache_aux h now rest count (kill_etag_for_url_hash h (name.drop 2) cache) true
      else if CACHE_MAX_TIME < now - atime then
        clean_cache_aux h now rest count (kill_etag_for_url_hash h (name.drop 2) cache) true
      else
        let r := clean_cache_aux h now rest (count + 1) cache dirty
        ((name, atime) :: r.1, r.2)
    else
      let r := clean_cache_aux h now rest count cache dirty
      ((name, atime) :: r.1, r.2)

/-- Model of `clean_cache`: run the directory scan with `count = 0` and a clean flag;
when the returned flag is `true` the C code calls `write_etags_to_cache`
(persists the index). -/
def clean_cache (h : List Char → List Nat) (now : Nat) (dir : List (List Char × Nat))
    (cache : List etag_data) : List (List Char × Nat) × List etag_data × Bool :=
  clean_cache_aux h now dir 0 cache false

/-- The loop of `safe_strtoklen` at pointer level: `buf` is the mapped file,
`e` the one-past-the-end index, `f` the cursor.  Counts characters up to the
token or the end, never looking at an index `≥ e`.  One fuel unit per loop
iteration; the cursor advances by one each iteration, so `fuel = e - f`
(supplied by `safe_strtoklen`) suffices. -/
def safe_strtoklen_aux (buf : Nat → Char) (token : Char) (e : Nat) : Nat → Nat → Nat
  | 0, _ => 0
  | fuel + 1, f =>
    if f < e then
      if buf f = token then 0 else safe_strtoklen_aux buf token e fuel (f + 1) + 1
    else 0

/-- Model of `safe_strtoklen(f, token, end)` of image_cache.c. -/
def safe_strtoklen (buf : Nat → Char) (token : Char) (f e : Nat) : Nat :=
  safe_strtoklen_aux buf token e (e - f) f

/-- The indices of `buf` read by `safe_strtoklen` (it dereferences the cursor
once per iteration, including the iteration that finds the token). -/
def strtok_reads (buf : Nat → Char) (token : Char) (e : Nat) : Nat → Nat → List Nat
  | 0, _ => []
  | fuel + 1, f =>
    if f < e then
      f :: (if buf f = token then [] else strtok_reads buf token e fuel (f + 1))
    else []

/-- The indices read by `safe_strdup(f, len)`: `memcpy` of `len` bytes starting
at `f`. -/
def strdup_reads (start len : Nat) : List Nat := (List.range len).map (start + ·)

/-- Every index of the mapped `.etags` file read by one run of
`parse_etag_file_data`, in program order: per record, the URL scan, the ETag
scan, and (for a well-formed record) the two `safe_strdup` copies; then the
next record.  The structure mirrors `parse_etag_aux` at pointer level. -/
def parse_etag_reads_aux (buf : Nat → Char) (e : Nat) : Nat → Nat → List Nat
  | 0, _ => []
  | fuel + 1, f =>
    if f < e then
      let url_len := safe_strtoklen buf ' ' f e
      let r1 := strtok_reads buf ' ' e (e - f) f
      if url_len = 0 then r1
      else
        let etag_pos := f + url_len + 1
        let etag_len := safe_strtoklen buf '\n' etag_pos e
        let r2 := strtok_reads buf '\n' e (e - etag_pos) etag_pos
        if etag_len = 0 then r1 ++ r2
        else r1 ++ r2 ++ strdup_reads f url_len ++ strdup_reads etag_pos etag_len ++
          parse_etag_reads_aux buf e fuel (etag_pos + etag_len + 1)
    else []

/-- All indices of the length-`len` buffer read by `parse_etag_file_data`. -/
def parse_etag_reads (buf : Nat → Char) (len : Nat) : List Nat :=
  parse_etag_reads_aux buf len len 0

/-- A concrete stand-in for the opaque murmur hash, used by concrete
scenarios: every URL hashes to sixteen zero bytes. -/
def const_hash : List Char → List Nat := fun _ => List.replicate 16 0

/-- A concrete one-file cache directory: the cache file for URL `"u"` (under
`const_hash`) holding the two bytes `[1, 2]`. -/
def demo_fs : file_sys := [(get_filename_from_url const_hash ['u'], [1, 2])]

/-! ## Helper lemmas -/

theorem from_hex_hexChar : ∀ n, n < 16 → FROM_HEX (hexChar n) = n := by decide

theorem bytes_from_hex_hex_encode (b : List Nat) (hb : ∀ x ∈ b, x < 256) :
    bytes_from_hex (hex_encode b) = b := by
  induction b with
  | nil => rfl
  | cons x t ih =>
    have hx : x < 256 := hb x (List.mem_cons_self x t)
    have ht : ∀ y ∈ t, y < 256 := fun y hy => hb y (List.mem_cons_of_mem x hy)
    have h1 : FROM_HEX (hexChar (x % 16)) = x % 16 :=
      from_hex_hexChar _ (Nat.mod_lt _ (by norm_num))
    have h2 : FROM_HEX (hexChar (x / 16 % 16)) = x / 16 % 16 :=
      from_hex_hexChar _ (Nat.mod_lt _ (by norm_num))
    simp only [hex_encode, bytes_from_hex, h1, h2, ih ht]
    have : x / 16 % 16 * 16 + x % 16 = x := by omega
    rw [this]

theorem hex_encode_length (b : List Nat) : (hex_encode b).length = 2 * b.length := by
  induction b with
  | nil => rfl
  | cons x t ih => simp only [hex_encode, List.length_cons, ih]; omega

theorem fs_lookup_eq_none_of_not_mem (fs : file_sys) (name : List Char)
    (hn : name ∉ fs.map Prod.fst) : fs_lookup fs name = none := by
  induction fs with
  | nil => rfl
  | cons p rest ih =>
    obtain ⟨n, c⟩ := p
    simp only [List.map_cons, List.mem_cons, not_or] at hn
    simp only [fs_lookup]
    rw [if_neg fun hh => hn.1 hh.symm]
    exact ih hn.2

theorem fs_lookup_fs_remove_self (fs : file_sys) (name : List Char)
    (hfs : (fs.map Prod.fst).Nodup) : fs_lookup (fs_remove fs name) name = none := by
  induction fs with
  | nil => rfl
  | cons p rest ih =>
    obtain ⟨n, c⟩ := p
    simp only [List.map_cons, List.nodup_cons] at hfs
    simp only [fs_remove]
    by_cases hn : n = name
    · rw [if_pos hn]
      exact fs_lookup_eq_none_of_not_mem rest name (hn ▸ hfs.1)
    · rw [if_neg hn]
      simp only [fs_lookup]
      rw [if_neg hn]
      exact ih hfs.2

theorem kill_etag_for_url_map_url (url : List Char) (cache : List etag_data) :
    (kill_etag_for_url url cache).map etag_data.url = cache.map etag_data.url := by
  induction cache with
  | nil => rfl
  | cons d rest ih =>
    simp only [kill_etag_for_url]
    by_cases hd : d.url = url
    · rw [if_pos hd]
      simp
    · rw [if_neg hd]
      simp only [List.map_cons, ih]

theorem kill_etag_for_url_etag_none (url : List Char) (cache : List etag_data)
    (hc : (cache.map etag_data.url).Nodup) :
    ∀ d ∈ kill_etag_for_url url cache, d.url = url → d.etag = none := by
  induction cache with
  | nil => intro d hd; simp [kill_etag_for_url] at hd
  | cons d0 rest ih =>
    simp only [List.map_cons, List.nodup_cons] at hc
    intro d hd hdu
    simp only [kill_etag_for_url] at hd
    by_cases h0 : d0.url = url
    · rw [if_pos h0] at hd
      rcases List.mem_cons.mp hd with h | h
      · subst h; rfl
      · exfalso
        apply hc.1
        rw [h0, ← hdu]
        exact List.mem_map_of_mem etag_data.url h
    · rw [if_neg h0] at hd
      rcases List.mem_cons.mp hd with h | h
      · subst h; exact absurd hdu h0
      · exact ih hc.2 d h hdu

theorem kill_etag_for_url_mem_of_ne (url : List Char) (cache : List etag_data) :
    ∀ d ∈ cache, d.url ≠ url → d ∈ kill_etag_for_url url cache := by
  induction cache with
  | nil => intro d hd; simp at hd
  | cons d0 rest ih =>
    intro d hd hne
    simp only [kill_etag_for_url]
    by_cases h0 : d0.url = url
    · rw [if_pos h0]
      rcases List.mem_cons.mp hd with h | h
      · subst h; exact absurd h0 hne
      · exact List.mem_cons_of_mem _ h
    · rw [if_neg h0]
      rcases List.mem_cons.mp hd with h | h
      · subst h; exact List.mem_cons_self _ _
      · exact List.mem_cons_of_mem _ (ih d h hne)

theorem takeWhile_ne_append (tok : Char) (u r : List Char) (hu : tok ∉ u) :
    (u ++ tok :: r).takeWhile (fun c => c != tok) = u := by
  induction u with
  | nil => simp [List.takeWhile_cons]
  | cons a t ih =>
    simp only [List.mem_cons, not_or] at hu
    have ha : (a != tok) = true := bne_iff_ne.mpr fun hh => hu.1 hh.symm
    simp only [List.cons_append, List.takeWhile_cons, ha, if_true]
    rw [ih hu.2]

theorem takeWhile_ne_all (tok : Char) (u : List Char) (hu : tok ∉ u) :
    u.takeWhile (fun c => c != tok) = u := by
  induction u with
  | nil => rfl
  | cons a t ih =>
    simp only [List.mem_cons, not_or] at hu
    have ha : (a != tok) = true := bne_iff_ne.mpr fun hh => hu.1 hh.symm
    simp only [List.takeWhile_cons, ha, if_true]
    rw [ih hu.2]

theorem drop_append_succ (u : List Char) (a : Char) (r : List Char) :
    (u ++ a :: r).drop (u.length + 1) = r := by
  induction u with
  | nil => rfl
  | cons b t ih =>
    simp only [List.cons_append, List.length_cons]
    rw [Nat.add_right_comm, List.drop_succ_cons]
    exact ih

theorem parse_etag_aux_nil (n : Nat) : parse_etag_aux n [] = [] := by
  cases n <;> simp [parse_etag_aux]

theorem parse_etag_aux_congr : ∀ (n m : Nat) (f : List Char),
    f.length ≤ n → f.length ≤ m → parse_etag_aux n f = parse_etag_aux m f := by
  intro n
  induction n with
  | zero =>
    intro m f hn _
    have hf : f = [] := List.eq_nil_of_length_eq_zero (Nat.le_zero.mp hn)
    subst hf
    rw [parse_etag_aux_nil, parse_etag_aux_nil]
  | succ n ih =>
    intro m f hn hm
    cases f with
    | nil => rw [parse_etag_aux_nil, parse_etag_aux_nil]
    | cons c t =>
      cases m with
      | zero => simp at hm
      | succ m =>
        simp only [parse_etag_aux, List.isEmpty_cons, Bool.false_eq_true, if_false]
        by_cases h1 : ((c :: t).takeWhile (fun c => c != ' ')).length = 0
        · rw [if_pos h1, if_pos h1]
        · rw [if_neg h1, if_neg h1]
          by_cases h2 : (((c :: t).drop (((c :: t).takeWhile (fun c => c != ' ')).length + 1)).takeWhile
              (fun c => c != '\n')).length = 0
          · rw [if_pos h2, if_pos h2]
          · rw [if_neg h2, if_neg h2]
            congr 1
            apply ih
            · have := List.length_drop (((c :: t).takeWhile (fun c => c != ' ')).length + 1) (c :: t)
              have h3 := List.length_drop
                ((((c :: t).drop (((c :: t).takeWhile (fun c => c != ' ')).length + 1)).takeWhile
                  (fun c => c != '\n')).length + 1)
                ((c :: t).drop (((c :: t).takeWhile (fun c => c != ' ')).length + 1))
              simp only [List.length_cons] at this hn ⊢
              omega
            · have := List.length_drop (((c :: t).takeWhile (fun c => c != ' ')).length + 1) (c :: t)
              have h3 := List.length_drop
                ((((c :: t).drop (((c :: t).takeWhile (fun c => c != ' ')).length + 1)).takeWhile
                  (fun c => c != '\n')).length + 1)
                ((c :: t).drop (((c :: t).takeWhile (fun c => c != ' ')).length + 1))
              simp only [List.length_cons] at this hm ⊢
              omega

theorem parse_record (u e rest : List Char) (hu : u ≠ []) (hsp : ' ' ∉ u)
    (he : e ≠ []) (hnl : '\n' ∉ e) :
    parse_etag_file_data (u ++ ' ' :: (e ++ '\n' :: rest)) =
      (u, e) :: parse_etag_file_data rest := by
  have h0 : (u ++ ' ' :: (e ++ '\n' :: rest)).isEmpty = false := by
    cases u with
    | nil => exact absurd rfl hu
    | cons a u' => rfl
  have h1 : (u ++ ' ' :: (e ++ '\n' :: rest)).takeWhile (fun c => c != ' ') = u :=
    takeWhile_ne_append ' ' u _ hsp
  have h2 : (u ++ ' ' :: (e ++ '\n' :: rest)).drop (u.length + 1) = e ++ '\n' :: rest :=
    drop_append_succ u ' ' _
  have h3 : (e ++ '\n' :: rest).takeWhile (fun c => c != '\n') = e :=
    takeWhile_ne_append '\n' e rest hnl
  have h4 : (u ++ ' ' :: (e ++ '\n' :: rest)).take u.length = u := List.take_left u _
  have h5 : (e ++ '\n' :: rest).take e.length = e := List.take_left e _
  have h6 : (e ++ '\n' :: rest).drop (e.length + 1) = rest := drop_append_succ e '\n' rest
  have hul : u.length ≠ 0 := fun hh => hu (List.eq_nil_of_length_eq_zero hh)
  have hel : e.length ≠ 0 := fun hh => he (List.eq_nil_of_length_eq_zero hh)
  obtain ⟨n, hn⟩ : ∃ n, (u ++ ' ' :: (e ++ '\n' :: rest)).length = n + 1 := by
    cases u with
    | nil => exact absurd rfl hu
    | cons a u' => exact ⟨(u' ++ ' ' :: (e ++ '\n' :: rest)).length, by simp⟩
  rw [parse_etag_file_data, hn]
  simp only [parse_etag_aux, h0, Bool.false_eq_true, if_false, h1, h2, h3, h4, h5, h6]
  rw [if_neg hul, if_neg hel]
  congr 1
  rw [parse_etag_file_data]
  apply parse_etag_aux_congr
  · have := List.length_append u (' ' :: (e ++ '\n' :: rest))
    simp only [List.length_cons, List.length_append] at this hn
    omega
  · exact Nat.le_refl _

theorem parse_write_append (cache : List etag_data)
    (hwf : ∀ d ∈ cache, ∀ e, d.etag = some e →
      d.url ≠ [] ∧ ' ' ∉ d.url ∧ e ≠ [] ∧ '\n' ∉ e) (tail : List Char) :
    parse_etag_file_data (write_etags_to_cache cache ++ tail) =
      etag_pairs cache ++ parse_etag_file_data tail := by
  induction cache with
  | nil => simp [write_etags_to_cache, etag_pairs]
  | cons d rest ih =>
    have hwrest : ∀ d ∈ rest, ∀ e, d.etag = some e →
        d.url ≠ [] ∧ ' ' ∉ d.url ∧ e ≠ [] ∧ '\n' ∉ e :=
      fun d' hd' => hwf d' (List.mem_cons_of_mem d hd')
    match hd : d.etag with
    | none =>
      simp only [write_etags_to_cache, hd, List.nil_append, etag_pairs, List.filterMap_cons,
        Option.map_none']
      exact ih hwrest
    | some e =>
      have hw := hwf d (List.mem_cons_self d rest) e hd
      simp only [write_etags_to_cache, hd, etag_pairs, List.filterMap_cons, Option.map_some']
      have : (d.url ++ ' ' :: (e ++ ['\n'])) ++ (write_etags_to_cache rest ++ tail) =
          d.url ++ ' ' :: (e ++ '\n' :: (write_etags_to_cache rest ++ tail)) := by
        simp
      rw [List.append_assoc, this, parse_record d.url e _ hw.1 hw.2.1 hw.2.2.1 hw.2.2.2]
      rw [ih hwrest]
      rfl

theorem filename_drop_two (h : List Char → List Nat) (url : List Char) :
    (get_filename_from_url h url).drop 2 = hex_encode (h url) := rfl

theorem filename_drop_two_length (h : List Char → List Nat) (url : List Char)
    (h16 : (h url).length = 16) : ((get_filename_from_url h url).drop 2).length = 32 := by
  rw [filename_drop_two, hex_encode_length, h16]

theorem filename_hash_roundtrip (h : List Char → List Nat) (url : List Char)
    (hb : ∀ b ∈ h url, b < 256) :
    bytes_from_hex ((get_filename_from_url h url).drop 2) = h url := by
  rw [filename_drop_two]
  exact bytes_from_hex_hex_encode _ hb

theorem is_cache_filename_filename (h : List Char → List Nat) (url : List Char)
    (h16 : (h url).length = 16) :
    is_cache_filename (get_filename_from_url h url) = true := by
  simp [get_filename_from_url, is_cache_filename, hex_encode_length, h16]

theorem kill_by_filename (h : List Char → List Nat) (url : List Char) (cache : List etag_data)
    (h16 : (h url).length = 16) (hb : ∀ b ∈ h url, b < 256) :
    kill_etag_for_url_hash h ((get_filename_from_url h url).drop 2) cache =
      kill_matching_hash h (h url) cache := by
  rw [kill_etag_for_url_hash, if_pos (filename_drop_two_length h url h16),
    filename_hash_roundtrip h url hb]

theorem get_etag_none_of_not_mem (cache : List etag_data) (url : List Char)
    (h : url ∉ cache.map etag_data.url) : get_etag_for_url cache url = none := by
  induction cache with
  | nil => rfl
  | cons d rest ih =>
    simp only [List.map_cons, List.mem_cons, not_or] at h
    simp only [get_etag_for_url]
    rw [if_neg fun hh => h.1 hh.symm]
    exact ih h.2

theorem mem_of_mem_kill_matching (h : List Char → List Nat) (t : List Nat) :
    ∀ cache (d : etag_data), d ∈ kill_matching_hash h t cache → d ∈ cache := by
  intro cache
  induction cache with
  | nil => intro d hd; simp [kill_matching_hash] at hd
  | cons d0 rest ih =>
    intro d hd
    simp only [kill_matching_hash] at hd
    by_cases h0 : h d0.url = t
    · rw [if_pos h0] at hd
      exact List.mem_cons_of_mem _ hd
    · rw [if_neg h0] at hd
      rcases List.mem_cons.mp hd with hh | hh
      · subst hh; exact List.mem_cons_self _ _
      · exact List.mem_cons_of_mem _ (ih d hh)

theorem nodup_kill_matching (h : List Char → List Nat) (t : List Nat) :
    ∀ cache, (cache.map etag_data.url).Nodup →
      ((kill_matching_hash h t cache).map etag_data.url).Nodup := by
  intro cache
  induction cache with
  | nil => intro hn; exact hn
  | cons d0 rest ih =>
    intro hn
    simp only [List.map_cons, List.nodup_cons] at hn
    simp only [kill_matching_hash]
    by_cases h0 : h d0.url = t
    · rw [if_pos h0]; exact hn.2
    · rw [if_neg h0]
      simp only [List.map_cons, List.nodup_cons]
      refine ⟨fun hc => ?_, ih hn.2⟩
      apply hn.1
      rcases List.mem_map.mp hc with ⟨d', hd', hu⟩
      exact hu ▸ List.mem_map_of_mem _ (mem_of_mem_kill_matching h t rest d' hd')

theorem get_none_after_kill_matching (h : List Char → List Nat) (url : List Char) :
    ∀ cache, (cache.map etag_data.url).Nodup →
      (∀ d ∈ cache, h d.url = h url → d.url = url) →
      get_etag_for_url (kill_matching_hash h (h url) cache) url = none := by
  intro cache
  induction cache with
  | nil => intro _ _; rfl
  | cons d0 rest ih =>
    intro hn hcoll
    simp only [List.map_cons, List.nodup_cons] at hn
    simp only [kill_matching_hash]
    by_cases h0 : h d0.url = h url
    · rw [if_pos h0]
      have hu : d0.url = url := hcoll d0 (List.mem_cons_self _ _) h0
      apply get_etag_none_of_not_mem
      rw [← hu]
      exact hn.1
    · rw [if_neg h0]
      simp only [get_etag_for_url]
      rw [if_neg fun hh => h0 (by rw [hh])]
      exact ih hn.2 fun d hd => hcoll d (List.mem_cons_of_mem _ hd)

theorem get_none_preserved_kill_matching (h : List Char → List Nat) (t : List Nat)
    (url : List Char) : ∀ cache, (cache.map etag_data.url).Nodup →
      get_etag_for_url cache url = none →
      get_etag_for_url (kill_matching_hash h t cache) url = none := by
  intro cache
  induction cache with
  | nil => intro _ _; rfl
  | cons d0 rest ih =>
    intro hn hg
    simp only [List.map_cons, List.nodup_cons] at hn
    simp only [get_etag_for_url] at hg
    simp only [kill_matching_hash]
    by_cases h0 : h d0.url = t
    · rw [if_pos h0]
      by_cases hu : d0.url = url
      · apply get_etag_none_of_not_mem
        rw [← hu]
        exact hn.1
      · rw [if_neg hu] at hg
        exact hg
    · rw [if_neg h0]
      simp only [get_etag_for_url]
      by_cases hu : d0.url = url
      · rw [if_pos hu] at hg ⊢
        exact hg
      · rw [if_neg hu] at hg ⊢
        exact ih hn.2 hg

theorem mem_of_mem_kill_hash (h : List Char → List Nat) (s : List Char)
    (cache : List etag_data) (d : etag_data) (hd : d ∈ kill_etag_for_url_hash h s cache) :
    d ∈ cache := by
  rw [kill_etag_for_url_hash] at hd
  by_cases hl : s.length = 32
  · rw [if_pos hl] at hd
    exact mem_of_mem_kill_matching h _ cache d hd
  · rw [if_neg hl] at hd
    exact hd

theorem nodup_kill_hash (h : List Char → List Nat) (s : List Char) (cache : List etag_data)
    (hn : (cache.map etag_data.url).Nodup) :
    ((kill_etag_for_url_hash h s cache).map etag_data.url).Nodup := by
  rw [kill_etag_for_url_hash]
  by_cases hl : s.length = 32
  · rw [if_pos hl]
    exact nodup_kill_matching h _ cache hn
  · rw [if_neg hl]
    exact hn

theorem get_none_preserved_kill_hash (h : List Char → List Nat) (s : List Char)
    (url : List Char) (cache : List etag_data) (hn : (cache.map etag_data.url).Nodup)
    (hg : get_etag_for_url cache url = none) :
    get_etag_for_url (kill_etag_for_url_hash h s cache) url = none := by
  rw [kill_etag_for_url_hash]
  by_cases hl : s.length = 32
  · rw [if_pos hl]
    exact get_none_preserved_kill_matching h _ url cache hn hg
  · rw [if_neg hl]
    exact hg

theorem parse_space_head (rest : List Char) : parse_etag_file_data (' ' :: rest) = [] := by
  rw [parse_etag_file_data]
  simp only [List.length_cons]
  simp [parse_etag_aux, List.takeWhile_cons]

theorem parse_empty_etag (u : List Char) (rest : List Char) (hu : u ≠ []) (hsp : ' ' ∉ u) :
    parse_etag_file_data (u ++ ' ' :: '\n' :: rest) = [] := by
  have h0 : (u ++ ' ' :: '\n' :: rest).isEmpty = false := by
    cases u with
    | nil => exact absurd rfl hu
    | cons a u' => rfl
  have h1 : (u ++ ' ' :: '\n' :: rest).takeWhile (fun c => c != ' ') = u :=
    takeWhile_ne_append ' ' u _ hsp
  have h2 : (u ++ ' ' :: '\n' :: rest).drop (u.length + 1) = '\n' :: rest :=
    drop_append_succ u ' ' _
  have h3 : (('\n' :: rest).takeWhile (fun c => c != '\n')).length = 0 := by
    simp [List.takeWhile_cons]
  have hul : u.length ≠ 0 := fun hh => hu (List.eq_nil_of_length_eq_zero hh)
  obtain ⟨n, hn⟩ : ∃ n, (u ++ ' ' :: '\n' :: rest).length = n + 1 := by
    cases u with
    | nil => exact absurd rfl hu
    | cons a u' => exact ⟨(u' ++ ' ' :: '\n' :: rest).length, by simp⟩
  rw [parse_etag_file_data, hn]
  simp only [parse_etag_aux, h0, Bool.false_eq_true, if_false, h1, h2]
  rw [if_neg hul, if_pos h3]

theorem parse_no_separator (u : List Char) (hu : u ≠ []) (hsp : ' ' ∉ u) :
    parse_etag_file_data u = [] := by
  have h0 : u.isEmpty = false := by
    cases u with
    | nil => exact absurd rfl hu
    | cons a u' => rfl
  have h1 : u.takeWhile (fun c => c != ' ') = u := takeWhile_ne_all ' ' u hsp
  have h2 : u.drop (u.length + 1) = [] := List.drop_eq_nil_of_le (Nat.le_succ _)
  have hul : u.length ≠ 0 := fun hh => hu (List.eq_nil_of_length_eq_zero hh)
  obtain ⟨n, hn⟩ : ∃ n, u.length = n + 1 := by
    cases u with
    | nil => exact absurd rfl hu
    | cons a u' => exact ⟨u'.length, by simp⟩
  rw [parse_etag_file_data, hn]
  simp only [parse_etag_aux, h0, Bool.false_eq_true, if_false, h1, h2]
  rw [if_neg hul]
  simp

theorem clean_aux_preserves_get_none (h : List Char → List Nat) (now : Nat) (url : List Char) :
    ∀ dir count (cache : List etag_data) dirty,
      (cache.map etag_data.url).Nodup →
      get_etag_for_url cache url = none →
      get_etag_for_url (clean_cache_aux h now dir count cache dirty).2.1 url = none := by
  intro dir
  induction dir with
  | nil => intro count cache dirty _ hg; exact hg
  | cons p rest ih =>
    intro count cache dirty hn hg
    obtain ⟨name, atime⟩ := p
    simp only [clean_cache_aux]
    by_cases hc : is_cache_filename name
    · rw [if_pos hc]
      by_cases h1 : CACHE_MAX_SIZE ≤ count
      · rw [if_pos h1]
        exact ih count _ true (nodup_kill_hash h _ cache hn)
          (get_none_preserved_kill_hash h _ url cache hn hg)
      · rw [if_neg h1]
        by_cases h2 : CACHE_MAX_TIME < now - atime
        · rw [if_pos h2]
          exact ih count _ true (nodup_kill_hash h _ cache hn)
            (get_none_preserved_kill_hash h _ url cache hn hg)
        · rw [if_neg h2]
          exact ih (count + 1) cache dirty hn hg
    · rw [if_neg hc]
      exact ih count cache dirty hn hg

theorem clean_aux_size (h : List Char → List Nat) (now : Nat) :
    ∀ dir count (cache : List etag_data) dirty,
      ((clean_cache_aux h now dir count cache dirty).1.filter
        (fun p => is_cache_filename p.1)).length ≤ CACHE_MAX_SIZE - count := by
  intro dir
  induction dir with
  | nil => intro count cache dirty; simp [clean_cache_aux]
  | cons p rest ih =>
    intro count cache dirty
    obtain ⟨name, atime⟩ := p
    simp only [clean_cache_aux]
    by_cases hc : is_cache_filename name
    · rw [if_pos hc]
      by_cases h1 : CACHE_MAX_SIZE ≤ count
      · rw [if_pos h1]
        exact ih count _ true
      · rw [if_neg h1]
        by_cases h2 : CACHE_MAX_TIME < now - atime
        · rw [if_pos h2]
          exact ih count _ true
        · rw [if_neg h2]
          simp only [List.filter_cons, hc, if_true, List.length_cons]
          have := ih (count + 1) cache dirty
          simp only [CACHE_MAX_SIZE] at h1 this ⊢
          omega
    · rw [if_neg hc]
      simp only [List.filter_cons, hc, if_false, Bool.false_eq_true]
      exact ih count cache dirty

theorem clean_aux_age (h : List Char → List Nat) (now : Nat) :
    ∀ dir count (cache : List etag_data) dirty p,
      p ∈ (clean_cache_aux h now dir count cache dirty).1 →
      is_cache_filename p.1 = true → now - p.2 ≤ CACHE_MAX_TIME := by
  intro dir
  induction dir with
  | nil => intro count cache dirty p hp; simp [clean_cache_aux] at hp
  | cons q rest ih =>
    intro count cache dirty p hp hcp
    obtain ⟨name, atime⟩ := q
    simp only [clean_cache_aux] at hp
    by_cases hc : is_cache_filename name
    · rw [if_pos hc] at hp
      by_cases h1 : CACHE_MAX_SIZE ≤ count
      · rw [if_pos h1] at hp
        exact ih count _ true p hp hcp
      · rw [if_neg h1] at hp
        by_cases h2 : CACHE_MAX_TIME < now - atime
        · rw [if_pos h2] at hp
          exact ih count _ true p hp hcp
        · rw [if_neg h2] at hp
          rcases List.mem_cons.mp hp with hh | hh
          · subst hh
            omega
          · exact ih (count + 1) cache dirty p hh hcp
    · rw [if_neg hc] at hp
      rcases List.mem_cons.mp hp with hh | hh
      · subst hh
        simp only at hcp
        exact absurd hcp (by simp [hc])
      · exact ih count cache dirty p hh hcp

theorem clean_aux_dirty_mono (h : List Char → List Nat) (now : Nat) :
    ∀ dir count (cache : List etag_data),
      (clean_cache_aux h now dir count cache true).2.2 = true := by
  intro dir
  induction dir with
  | nil => intro count cache; rfl
  | cons p rest ih =>
    intro count cache
    obtain ⟨name, atime⟩ := p
    simp only [clean_cache_aux]
    by_cases hc : is_cache_filename name
    · rw [if_pos hc]
      by_cases h1 : CACHE_MAX_SIZE ≤ count
      · rw [if_pos h1]
        exact ih count _
      · rw [if_neg h1]
        by_cases h2 : CACHE_MAX_TIME < now - atime
        · rw [if_pos h2]
          exact ih count _
        · rw [if_neg h2]
          exact ih (count + 1) cache
    · rw [if_neg hc]
      exact ih count cache

theorem clean_aux_removed_dirty (h : List Char → List Nat) (now : Nat) :
    ∀ dir count (cache : List etag_data) dirty p,
      p ∈ dir → p ∉ (clean_cache_aux h now dir count cache dirty).1 →
      (clean_cache_aux h now dir count cache dirty).2.2 = true := by
  intro dir
  induction dir with
  | nil => intro count cache dirty p hp; simp at hp
  | cons q rest ih =>
    intro count cache dirty p hp hnp
    obtain ⟨name, atime⟩ := q
    simp only [clean_cache_aux] at hnp ⊢
    by_cases hc : is_cache_filename name
    · rw [if_pos hc] at hnp ⊢
      by_cases h1 : CACHE_MAX_SIZE ≤ count
      · rw [if_pos h1]
        exact clean_aux_dirty_mono h now rest count _
      · rw [if_neg h1] at hnp ⊢
        by_cases h2 : CACHE_MAX_TIME < now - atime
        · rw [if_pos h2]
          exact clean_aux_dirty_mono h now rest count _
        · rw [if_neg h2] at hnp ⊢
          rcases List.mem_cons.mp hp with hh | hh
          · exact absurd (hh ▸ List.mem_cons_self _ _) hnp
          · exact ih (count + 1) cache dirty p hh fun hx =>
              hnp (List.mem_cons_of_mem _ hx)
    · rw [if_neg hc] at hnp ⊢
      rcases List.mem_cons.mp hp with hh | hh
      · exact absurd (hh ▸ List.mem_cons_self _ _) hnp
      · exact ih count cache dirty p hh fun hx => hnp (List.mem_cons_of_mem _ hx)

theorem clean_aux_removed_etag_none (h : List Char → List Nat) (now : Nat) (url : List Char)
    (a : Nat) (h16 : (h url).length = 16) (hb : ∀ b ∈ h url, b < 256) :
    ∀ dir count (cache : List etag_data) dirty,
      (dir.map Prod.fst).Nodup →
      (cache.map etag_data.url).Nodup →
      (∀ d ∈ cache, h d.url = h url → d.url = url) →
      (get_filename_from_url h url, a) ∈ dir →
      (get_filename_from_url h url, a) ∉ (clean_cache_aux h now dir count cache dirty).1 →
      get_etag_for_url (clean_cache_aux h now dir count cache dirty).2.1 url = none := by
  intro dir
  induction dir with
  | nil => intro count cache dirty _ _ _ hp; simp at hp
  | cons q rest ih =>
    intro count cache dirty hdir hn hcoll hp hnp
    obtain ⟨name, atime⟩ := q
    simp only [List.map_cons, List.nodup_cons] at hdir
    simp only [clean_cache_aux] at hnp ⊢
    by_cases hc : is_cache_filename name
    · rw [if_pos hc] at hnp ⊢
      by_cases h1 : CACHE_MAX_SIZE ≤ count
      · rw [if_pos h1] at hnp ⊢
        by_cases hq : (get_filename_from_url h url, a) = (name, atime)
        · obtain ⟨hq1, hq2⟩ := Prod.mk.injEq .. ▸ hq
          rw [← hq1, kill_by_filename h url cache h16 hb]
          exact clean_aux_preserves_get_none h now url rest count _ true
            (nodup_kill_matching h _ cache hn)
            (get_none_after_kill_matching h url cache hn hcoll)
        · have hrest : (get_filename_from_url h url, a) ∈ rest := by
            rcases List.mem_cons.mp hp with hh | hh
            · exact absurd hh hq
            · exact hh
          exact ih count _ true hdir.2 (nodup_kill_hash h _ cache hn)
            (fun d hd => hcoll d (mem_of_mem_kill_hash h _ cache d hd)) hrest hnp
      · rw [if_neg h1] at hnp ⊢
        by_cases h2 : CACHE_MAX_TIME < now - atime
        · rw [if_pos h2] at hnp ⊢
          by_cases hq : (get_filename_from_url h url, a) = (name, atime)
          · obtain ⟨hq1, hq2⟩ := Prod.mk.injEq .. ▸ hq
            rw [← hq1, kill_by_filename h url cache h16 hb]
            exact clean_aux_preserves_get_none h now url rest count _ true
              (nodup_kill_matching h _ cache hn)
              (get_none_after_kill_matching h url cache hn hcoll)
          · have hrest : (get_filename_from_url h url, a) ∈ rest := by
              rcases List.mem_cons.mp hp with hh | hh
              · exact absurd hh hq
              · exact hh
            exact ih count _ true hdir.2 (nodup_kill_hash h _ cache hn)
              (fun d hd => hcoll d (mem_of_mem_kill_hash h _ cache d hd)) hrest hnp
        · rw [if_neg h2] at hnp ⊢
          have hrest : (get_filename_from_url h url, a) ∈ rest := by
            rcases List.mem_cons.mp hp with hh | hh
            · exact absurd (hh ▸ List.mem_cons_self _ _) hnp
            · exact hh
          exact ih (count + 1) cache dirty hdir.2 hn hcoll hrest fun hx =>
            hnp (List.mem_cons_of_mem _ hx)
    · rw [if_neg hc] at hnp ⊢
      have hrest : (get_filename_from_url h url, a) ∈ rest := by
        rcases List.mem_cons.mp hp with hh | hh
        · exfalso
          apply hc
          have : name = get_filename_from_url h url := by
            have := congrArg Prod.fst hh
            exact this.symm
          rw [this]
          exact is_cache_filename_filename h url h16
        · exact hh
      exact ih count cache dirty hdir.2 hn hcoll hrest fun hx =>
        hnp (List.mem_cons_of_mem _ hx)

/-! ## Claims -/

/-- C3 counterexample: the claim states that a record with a zero-length ETag
is skipped and the following records are still parsed.  On the buffer
`"u \nv w\n"` the first record has a zero-length ETag and the parser `break`s:
it produces no records at all, and in particular the well-formed record
`"v w"` that follows the malformed one is not added to the index. -/
theorem parse_skip_continue_counterexample :
    parse_etag_file_data "u \nv w\n".toList = [] ∧
    (['v'], ['w']) ∉ parse_etag_file_data "u \nv w\n".toList := by decide

/-- C3 amended: when `parse_etag_file_data` meets a record with a zero-length
URL (a buffer position holding `' '`) or a zero-length ETag (`" \n"` right
after the URL), it stops: that record and every subsequent record are ignored
(the records already parsed are kept).  A trailing partial record with no
separator after its URL is likewise ignored. -/
theorem parse_malformed_record_stops (cache : List etag_data) (u : List Char)
    (rest : List Char)
    (hwf : ∀ d ∈ cache, ∀ e, d.etag = some e →
      d.url ≠ [] ∧ ' ' ∉ d.url ∧ e ≠ [] ∧ '\n' ∉ e)
    (hu : u ≠ []) (hsp : ' ' ∉ u) :
    parse_etag_file_data (write_etags_to_cache cache ++ ' ' :: rest) = etag_pairs cache ∧
    parse_etag_file_data (write_etags_to_cache cache ++ (u ++ ' ' :: '\n' :: rest)) =
      etag_pairs cache ∧
    parse_etag_file_data (write_etags_to_cache cache ++ u) = etag_pairs cache := by
  refine ⟨?_, ?_, ?_⟩
  · rw [parse_write_append cache hwf, parse_space_head, List.append_nil]
  · rw [parse_write_append cache hwf, parse_empty_etag u rest hu hsp, List.append_nil]
  · rw [parse_write_append cache hwf, parse_no_separator u hu hsp, List.append_nil]

theorem parse_malformed_record_stops_witness :
    parse_etag_file_data (write_etags_to_cache [⟨['a'], some ['b']⟩] ++ ' ' :: ['q']) =
      etag_pairs [⟨['a'], some ['b']⟩] ∧
    parse_etag_file_data
        (write_etags_to_cache [⟨['a'], some ['b']⟩] ++ (['x'] ++ ' ' :: '\n' :: ['q'])) =
      etag_pairs [⟨['a'], some ['b']⟩] ∧
    parse_etag_file_data (write_etags_to_cache [⟨['a'], some ['b']⟩] ++ ['x']) =
      etag_pairs [⟨['a'], some ['b']⟩] :=
  parse_malformed_record_stops [⟨['a'], some ['b']⟩] ['x'] ['q']
    (by
      intro d hd e he
      simp only [List.mem_singleton] at hd
      subst hd
      cases he
      decide)
    (by decide) (by decide)

/-- C5 counterexample: the claim states that persisting any in-memory index
and re-parsing the file yields back exactly the entries that had an ETag.  A
URL containing a space breaks this: the entry `("a b", "c")` is written as
`"a b c\n"` and parses back as `("a", "b c")`. -/
theorem etag_roundtrip_counterexample :
    parse_etag_file_data (write_etags_to_cache [⟨['a', ' ', 'b'], some ['c']⟩]) ≠
      etag_pairs [⟨['a', ' ', 'b'], some ['c']⟩] := by decide

/-- C5 amended: for an index whose ETag-carrying entries have a non-empty URL
without spaces and a non-empty ETag without newlines, writing the `.etags`
file and parsing it back yields exactly the `(url, etag)` pairs of the entries
whose ETag is present — entries with `etag = None` are omitted on write and
not read back, so the file always denotes that subset of the index. -/
theorem etag_write_parse_roundtrip (cache : List etag_data)
    (hwf : ∀ d ∈ cache, ∀ e, d.etag = some e →
      d.url ≠ [] ∧ ' ' ∉ d.url ∧ e ≠ [] ∧ '\n' ∉ e) :
    parse_etag_file_data (write_etags_to_cache cache) = etag_pairs cache := by
  have h := parse_write_append cache hwf []
  rw [List.append_nil] at h
  rw [h]
  simp [parse_etag_file_data, parse_etag_aux]

theorem etag_write_parse_roundtrip_witness :
    parse_etag_file_data (write_etags_to_cache [⟨['a'], some ['b']⟩, ⟨['c'], none⟩]) =
      etag_pairs [⟨['a'], some ['b']⟩, ⟨['c'], none⟩] :=
  etag_write_parse_roundtrip [⟨['a'], some ['b']⟩, ⟨['c'], none⟩]
    (by
      intro d hd e he
      rcases List.mem_cons.mp hd with h | h
      · subst h
        cases he
        decide
      · simp only [List.mem_singleton] at h
        subst h
        cases he)

/-- C1: the claim states that a WorkItem with `bytes = None` and
`request_failed = false` is handled by the worker exactly like the
`request_failed = true` case (read the cached file from disk and invoke the
callback with its bytes).  The code does not: `worker_run` only calls
`callback_cached_image` when `item->request_failed` is set, and silently frees
a `(NULL, 0, false)` item ("Otherwise: We still are trying to contact the
server").  This theorem evaluates the worker at the failing input: with the
cached file for `"u"` on disk holding `[1, 2]`, the `(None, false)` item
produces no callback and leaves the directory untouched, while the
`(None, true)` item delivers `[1, 2]` from disk. -/
theorem worker_drops_no_bytes_not_failed :
    process_work_item const_hash demo_fs ⟨['u'], none, false⟩ = ([], demo_fs) ∧
    process_work_item const_hash demo_fs ⟨['u'], none, true⟩ = ([(['u'], [1, 2])], demo_fs) := by
  decide

/-- C2: the claim states that every `load(url)` leads to at least one and at
most two callback invocations by the time its fetch completes.  The code
violates the lower bound: for a URL whose cache file is on disk and whose
revalidation completes with an empty body (the 304 case), both queued work
items carry `bytes = NULL, request_failed = false` and the worker discards
them, so the callback fires zero times.  This theorem evaluates that failing
input. -/
theorem load_session_zero_callbacks :
    (load_session const_hash demo_fs ['u'] (.success [])).1 = [] := by decide

/-- C10: when no cache file for `url` exists on disk, `image_cache_remove`
leaves everything unchanged: same directory, same ETag index, and the ETag
file is not rewritten. -/
theorem image_cache_remove_noop (h : List Char → List Nat) (fs : file_sys)
    (cache : List etag_data) (url : List Char)
    (hne : image_exists_in_cache h fs url = false) :
    image_cache_remove h fs cache url = (fs, cache, false) := by
  simp [image_cache_remove, hne]

theorem image_cache_remove_noop_witness :
    image_exists_in_cache const_hash [] ['u'] = false ∧
    image_cache_remove const_hash [] [] ['u'] = ([], [], false) :=
  ⟨by decide, image_cache_remove_noop const_hash [] [] ['u'] (by decide)⟩

/-- C7: when the cache file for `url` exists, `image_cache_remove` deletes
that file, sets the URL's ETag entry to `None` while keeping the entry (the
index holds exactly the same URLs, entries for other URLs are untouched), and
rewrites the ETag database. -/
theorem image_cache_remove_spec (h : List Char → List Nat) (fs : file_sys)
    (cache : List etag_data) (url : List Char)
    (hex : image_exists_in_cache h fs url = true)
    (hfs : (fs.map Prod.fst).Nodup)
    (hcache : (cache.map etag_data.url).Nodup) :
    fs_lookup (image_cache_remove h fs cache url).1 (get_filename_from_url h url) = none ∧
    (image_cache_remove h fs cache url).2.1.map etag_data.url = cache.map etag_data.url ∧
    (∀ d ∈ (image_cache_remove h fs cache url).2.1, d.url = url → d.etag = none) ∧
    (∀ d ∈ cache, d.url ≠ url → d ∈ (image_cache_remove h fs cache url).2.1) ∧
    (image_cache_remove h fs cache url).2.2 = true := by
  simp only [image_cache_remove, hex, if_true]
  exact ⟨fs_lookup_fs_remove_self fs _ hfs,
    kill_etag_for_url_map_url url cache,
    kill_etag_for_url_etag_none url cache hcache,
    kill_etag_for_url_mem_of_ne url cache,
    trivial⟩

theorem image_cache_remove_spec_witness :
    fs_lookup (image_cache_remove const_hash demo_fs [⟨['u'], some ['e']⟩] ['u']).1
      (get_filename_from_url const_hash ['u']) = none ∧
    (image_cache_remove const_hash demo_fs [⟨['u'], some ['e']⟩] ['u']).2.2 = true := by
  have s := image_cache_remove_spec const_hash demo_fs [⟨['u'], some ['e']⟩] ['u']
    (by decide) (by decide) (by decide)
  exact ⟨s.1, s.2.2.2.2⟩

/-- C6: the low-nibble-first hex rendering used by `get_filename_from_url` and
the `FROM_HEX` decoding used by `kill_etag_for_url_hash` are mutually inverse:
decoding the hex rendering of any 16-byte buffer yields the buffer back. -/
theorem hex_roundtrip (b : List Nat) (_hlen : b.length = 16) (hb : ∀ x ∈ b, x < 256) :
    bytes_from_hex (hex_encode b) = b :=
  bytes_from_hex_hex_encode b hb

theorem hex_roundtrip_witness :
    (List.range 16).length = 16 ∧
    bytes_from_hex (hex_encode (List.range 16)) = List.range 16 :=
  ⟨by decide, hex_roundtrip (List.range 16) (by decide) (by decide)⟩

/-- C9: for every URL, `get_filename_from_url` (a pure function, hence
deterministic) produces a name of length exactly `34` beginning with the
two-byte prefix `"I$"`, and that name passes the `is_cache_filename` test used
by `clean_cache`.  The hypothesis records that the murmur hash produces 16
bytes (`FILENAME_HASH_BYTES`). -/
theorem get_filename_spec (h : List Char → List Nat) (url : List Char)
    (h16 : (h url).length = 16) :
    (get_filename_from_url h url).length = 34 ∧
    (get_filename_from_url h url).take 2 = ['I', '$'] ∧
    is_cache_filename (get_filename_from_url h url) = true := by
  refine ⟨?_, rfl, ?_⟩
  · simp [get_filename_from_url, hex_encode_length, h16]
  · simp [get_filename_from_url, is_cache_filename, hex_encode_length, h16]

/-- C4: after `clean_cache` runs on any directory state, (1) at most
`CACHE_MAX_SIZE = 3` cache-named files survive; (2) no surviving cache-named
file has last-access age over `CACHE_MAX_TIME` (one week); (3) for every
removed cache file, the index no longer yields an ETag for the file's URL —
`kill_etag_for_url_hash` deletes the entry outright — provided the hash is
16 bytes of `unsigned char` and no other index entry collides with that URL's
hash (`kill_etag_for_url_hash` removes only the first hash match); and (4)
whenever any file was removed the returned flag is `true`, i.e. the C code
calls `write_etags_to_cache`. -/
theorem clean_cache_spec (h : List Char → List Nat) (now : Nat) (dir : List (List Char × Nat))
    (cache : List etag_data)
    (hdir : (dir.map Prod.fst).Nodup) (hcache : (cache.map etag_data.url).Nodup) :
    ((clean_cache h now dir cache).1.filter (fun p => is_cache_filename p.1)).length ≤
      CACHE_MAX_SIZE ∧
    (∀ p ∈ (clean_cache h now dir cache).1, is_cache_filename p.1 = true →
      now - p.2 ≤ CACHE_MAX_TIME) ∧
    (∀ url a, (h url).length = 16 → (∀ b ∈ h url, b < 256) →
      (∀ d ∈ cache, h d.url = h url → d.url = url) →
      (get_filename_from_url h url, a) ∈ dir →
      (get_filename_from_url h url, a) ∉ (clean_cache h now dir cache).1 →
      get_etag_for_url (clean_cache h now dir cache).2.1 url = none) ∧
    (∀ p ∈ dir, p ∉ (clean_cache h now dir cache).1 →
      (clean_cache h now dir cache).2.2 = true) := by
  refine ⟨?_, ?_, ?_, ?_⟩
  · have hs := clean_aux_size h now dir 0 cache false
    simpa [clean_cache] using hs
  · intro p hp hcp
    exact clean_aux_age h now dir 0 cache false p hp hcp
  · intro url a h16 hb hcoll hp hnp
    exact clean_aux_removed_etag_none h now url a h16 hb dir 0 cache false hdir hcache hcoll
      hp hnp
  · intro p hp hnp
    exact clean_aux_removed_dirty h now dir 0 cache false p hp hnp

theorem clean_cache_spec_witness :
    get_etag_for_url (clean_cache const_hash 700000
      [(get_filename_from_url const_hash ['u'], 0)] [⟨['u'], some ['e']⟩]).2.1 ['u'] = none ∧
    (clean_cache const_hash 700000
      [(get_filename_from_url const_hash ['u'], 0)] [⟨['u'], some ['e']⟩]).2.2 = true := by
  have s := clean_cache_spec const_hash 700000
    [(get_filename_from_url const_hash ['u'], 0)] [⟨['u'], some ['e']⟩]
    (by decide) (by decide)
  exact ⟨s.2.2.1 ['u'] 0 (by decide) (by decide) (by decide) (by decide) (by decide),
    s.2.2.2 (get_filename_from_url const_hash ['u'], 0) (by decide) (by decide)⟩

theorem strtok_reads_lt (buf : Nat → Char) (token : Char) (e : Nat) :
    ∀ fuel f i, i ∈ strtok_reads buf token e fuel f → i < e := by
  intro fuel
  induction fuel with
  | zero => intro f i hi; simp [strtok_reads] at hi
  | succ fuel ih =>
    intro f i hi
    simp only [strtok_reads] at hi
    by_cases hf : f < e
    · rw [if_pos hf] at hi
      rcases List.mem_cons.mp hi with h | h
      · subst h; exact hf
      · by_cases ht : buf f = token
        · rw [if_pos ht] at h; simp at h
        · rw [if_neg ht] at h; exact ih (f + 1) i h
    · rw [if_neg hf] at hi; simp at hi

theorem safe_strtoklen_aux_le (buf : Nat → Char) (token : Char) (e : Nat) :
    ∀ fuel f, safe_strtoklen_aux buf token e fuel f ≤ e - f := by
  intro fuel
  induction fuel with
  | zero => intro f; simp [safe_strtoklen_aux]
  | succ fuel ih =>
    intro f
    simp only [safe_strtoklen_aux]
    by_cases hf : f < e
    · rw [if_pos hf]
      by_cases ht : buf f = token
      · rw [if_pos ht]; omega
      · rw [if_neg ht]
        have := ih (f + 1)
        omega
    · rw [if_neg hf]; omega

theorem safe_strtoklen_le (buf : Nat → Char) (token : Char) (f e : Nat) :
    safe_strtoklen buf token f e ≤ e - f :=
  safe_strtoklen_aux_le buf token e (e - f) f

theorem parse_etag_reads_aux_lt (buf : Nat → Char) (e : Nat) :
    ∀ fuel f i, i ∈ parse_etag_reads_aux buf e fuel f → i < e := by
  intro fuel
  induction fuel with
  | zero => intro f i hi; simp [parse_etag_reads_aux] at hi
  | succ fuel ih =>
    intro f i hi
    simp only [parse_etag_reads_aux] at hi
    by_cases hf : f < e
    · rw [if_pos hf] at hi
      by_cases h1 : safe_strtoklen buf ' ' f e = 0
      · rw [if_pos h1] at hi
        exact strtok_reads_lt buf ' ' e _ f i hi
      · rw [if_neg h1] at hi
        by_cases h2 : safe_strtoklen buf '\n' (f + safe_strtoklen buf ' ' f e + 1) e = 0
        · rw [if_pos h2] at hi
          rcases List.mem_append.mp hi with h | h
          · exact strtok_reads_lt _ _ _ _ _ _ h
          · exact strtok_reads_lt _ _ _ _ _ _ h
        · rw [if_neg h2] at hi
          simp only [List.mem_append] at hi
          rcases hi with (((h | h) | h) | h) | h
          · exact strtok_reads_lt _ _ _ _ _ _ h
          · exact strtok_reads_lt _ _ _ _ _ _ h
          · simp only [strdup_reads, List.mem_map, List.mem_range] at h
            obtain ⟨j, hj, rfl⟩ := h
            have := safe_strtoklen_le buf ' ' f e
            omega
          · simp only [strdup_reads, List.mem_map, List.mem_range] at h
            obtain ⟨j, hj, rfl⟩ := h
            have := safe_strtoklen_le buf '\n' (f + safe_strtoklen buf ' ' f e + 1) e
            omega
          · exact ih _ i h
    · rw [if_neg hf] at hi; simp at hi

/-- C8: on a buffer of declared length `len`, every index dereferenced by
`parse_etag_file_data` — through `safe_strtoklen` scans and `safe_strdup`
copies — is `< len`, whatever the buffer contains (no NUL terminator is
assumed anywhere).  Termination holds by construction: the read cursor
strictly advances each record, so the `len`-bounded fuel of the model never
runs out on the C loop's reachable iterations. -/
theorem parse_etag_reads_in_bounds (buf : Nat → Char) (len : Nat) :
    ∀ i ∈ parse_etag_reads buf len, i < len :=
  fun i hi => parse_etag_reads_aux_lt buf len len 0 i hi

theorem parse_etag_reads_in_bounds_witness :
    0 ∈ parse_etag_reads (fun k => "u e\n".toList.getD k ' ') 4 ∧ 0 < 4 :=
  ⟨by decide, parse_etag_reads_in_bounds (fun k => "u e\n".toList.getD k ' ') 4 0 (by decide)⟩

theorem get_filename_spec_witness :
    (const_hash ['u']).length = 16 ∧
    ((get_filename_from_url const_hash ['u']).length = 34 ∧
      (get_filename_from_url const_hash ['u']).take 2 = ['I', '$'] ∧
      is_cache_filename (get_filename_from_url const_hash ['u']) = true) :=
  ⟨by decide, get_filename_spec const_hash ['u'] (by decide)⟩

end ImageCache
